import Mathlib

/-!
Verification development for the parsetron chart parser
(`src/parsetron/parsetron.py`).  The Python data model and the operations
under scrutiny are embedded shallowly: grammar elements become an inductive
tree, productions become pairs of an LHS element and an RHS list, charts
become explicit edge lists plus a backpointer association list, and
fallible operations return `Option`/`Except`.  Each claim about the
implementation is then settled by a theorem about these definitions.
-/

namespace Parsetron

/-!
Grammar elements (`GrammarElement` and its subclasses).  The atomic
matchers (`StringCs`, `String`, `SetCs`, `Set`, `RegexCs`, `Regex`) are
collapsed into `atom` carrying the Python object identity: the engine
compares elements by identity, and none of the claims about the grammar
compiler depend on which atomic matcher an atom is.  `null` is the `Null`
sentinel class.  `and_`/`or_` hold the `exprs` list of a
`GrammarExpression`; `optional`/`oneOrMore`/`zeroOrMore` hold the `expr`
of a `GrammarElementEnhance`.
-/

mutual
inductive GElem where
  | atom (id : Nat)
  | null
  | and_ (children : GElemList)
  | or_ (children : GElemList)
  | optional (child : GElem)
  | oneOrMore (child : GElem)
  | zeroOrMore (child : GElem)
deriving DecidableEq
inductive GElemList where
  | nil
  | cons (head : GElem) (tail : GElemList)
deriving DecidableEq
end

def GElemList.toList : GElemList → List GElem
  | .nil => []
  | .cons c cs => c :: cs.toList

/-- Predicate for `type(rhs) is Null` checks in the Python source. -/
def isNullElem : GElem → Bool
  | .null => true
  | _ => false

/-- Attribute `is_terminal`: `True` for plain `GrammarElement`s (the atomic
matchers and `Null`), `False` for `GrammarExpression` (`And`/`Or`) and
`GrammarElementEnhance` (`Optional`/`OneOrMore`/`ZeroOrMore`). -/
def GElem.is_terminal : GElem → Bool
  | .atom _ => true
  | .null => true
  | _ => false

/-!
Element trees in which the `Null` sentinel is never authored directly:
`Null` is documented in the source as "used internally", entering
productions only through the `Optional`/`ZeroOrMore` emitters.
-/

mutual
def nulFree : GElem → Bool
  | .atom _ => true
  | .null => false
  | .and_ cs => nulFreeList cs
  | .or_ cs => nulFreeList cs
  | .optional c => nulFree c
  | .oneOrMore c => nulFree c
  | .zeroOrMore c => nulFree c
def nulFreeList : GElemList → Bool
  | .nil => true
  | .cons c cs => nulFree c && nulFreeList cs
end

/-- Production `LHS -> RHS` (class `Production`). -/
structure Production where
  lhs : GElem
  rhs : List GElem
deriving DecidableEq

def Production.is_terminal (p : Production) : Bool := p.lhs.is_terminal

/-- The sentinel production `NULL -> [NULL]` (`NullProduction` in the
source). -/
def NullProduction : Production := ⟨.null, [.null]⟩

/-- Method `yield_productions` of each element class:
atomic `X` yields `X -> [X]`; `And` yields one production with its whole
`exprs` list as RHS; `Or` yields one unary production per alternative;
`Optional(e)` yields `-> [NULL]` and `-> [e]`; `OneOrMore(e)` yields
`-> [e]` and `-> [e, self]`; `ZeroOrMore(e)` yields `-> [NULL]`, `-> [e]`
and `-> [e, self]`. -/
def yield_productions : GElem → List Production
  | .atom i => [⟨.atom i, [.atom i]⟩]
  | .null => [⟨.null, [.null]⟩]
  | .and_ cs => [⟨.and_ cs, cs.toList⟩]
  | .or_ cs => cs.toList.map (fun e => ⟨.or_ cs, [e]⟩)
  | .optional c => [⟨.optional c, [.null]⟩, ⟨.optional c, [c]⟩]
  | .oneOrMore c => [⟨.oneOrMore c, [c]⟩, ⟨.oneOrMore c, [c, .oneOrMore c]⟩]
  | .zeroOrMore c =>
      [⟨.zeroOrMore c, [.null]⟩, ⟨.zeroOrMore c, [c]⟩,
       ⟨.zeroOrMore c, [c, .zeroOrMore c]⟩]

/-!
Method `GrammarImpl._build_grammar_recursively`: depth-first traversal
collecting, for every subelement, the productions it yields.  The Python
accumulator is a set; here a list, membership-insensitive to duplicates.
-/

mutual
def build_grammar_recursively : GElem → List Production
  | .atom i => [⟨.atom i, [.atom i]⟩]
  | .null => [⟨.null, [.null]⟩]
  | .and_ cs => build_grammar_list cs ++ yield_productions (.and_ cs)
  | .or_ cs => build_grammar_list cs ++ yield_productions (.or_ cs)
  | .optional c =>
      build_grammar_recursively c ++ yield_productions (.optional c)
  | .oneOrMore c =>
      build_grammar_recursively c ++ yield_productions (.oneOrMore c)
  | .zeroOrMore c =>
      build_grammar_recursively c ++ yield_productions (.zeroOrMore c)
def build_grammar_list : GElemList → List Production
  | .nil => []
  | .cons c cs => build_grammar_recursively c ++ build_grammar_list cs
end

/-- Test `all(type(rhs) is Null for rhs in prod.rhs)` from
`_eliminate_null_and_expand` (vacuously true on an empty RHS, as in
Python). -/
def all_null_rhs (p : Production) : Bool := p.rhs.all isNullElem

/-- Test `len(prod.rhs) == 1 and not prod.is_terminal and
prod.rhs[0] == prod.lhs` (identity productions). -/
def is_identity_production (p : Production) : Bool :=
  p.rhs.length == 1 && !p.is_terminal && p.rhs.head? == some p.lhs

/-- The production set after the two removals of
`_eliminate_null_and_expand` (all-`Null` productions, then non-terminal
identity productions) and before the combinatorial expansion. -/
def productions_before_expansion (ps : List Production) : List Production :=
  (ps.filter (fun p => !all_null_rhs p)).filter
    (fun p => !is_identity_production p)

/-- All ways to delete a subset of the RHS positions whose element lies in
`null_elements` (the loop over `itertools.combinations(remove_indices, i)`
in `_eliminate_null_and_expand`).  Each result pairs the surviving RHS,
in order, with a flag recording whether at least one position was deleted;
the flag distinguishes the nonempty combinations actually enumerated by
the source from the trivial no-deletion case. -/
def null_deletions (null_elements : List GElem) :
    List GElem → List (List GElem × Bool)
  | [] => [([], false)]
  | e :: rest =>
      let tails := null_deletions null_elements rest
      tails.map (fun lb => (e :: lb.1, lb.2)) ++
        (if e ∈ null_elements then tails.map (fun lb => (lb.1, true)) else [])

/-- The new productions contributed by one production during expansion:
a production for every nonempty deletion combination; a fully deleted RHS
becomes `LHS -> [NULL]` unless that production was among the removed null
productions. -/
def expand_production (null_elements : List GElem)
    (null_productions : List Production) (p : Production) : List Production :=
  (null_deletions null_elements p.rhs).filterMap (fun lb =>
    if lb.2 then
      if lb.1.length > 0 then some ⟨p.lhs, lb.1⟩
      else
        let np : Production := ⟨p.lhs, [.null]⟩
        if np ∈ null_productions then none else some np
    else none)

/-- Method `GrammarImpl._eliminate_null_and_expand`: remove all-`Null`
productions, remove non-terminal identity productions, then for every
remaining production add one production per nonempty combination of
deletable (`Null`-derivable) RHS positions. -/
def eliminate_null_and_expand (ps : List Production) : List Production :=
  let null_productions := ps.filter all_null_rhs
  let null_elements := null_productions.map Production.lhs
  let ps2 := productions_before_expansion ps
  ps2 ++ ps2.flatMap (expand_production null_elements null_productions)

/-- The production set of a compiled grammar: `GrammarImpl.__init__` builds
the productions from the goal element, runs
`_eliminate_null_and_expand`, then inserts the sentinel
`NULL -> [NULL]`. -/
def compiled_productions (goal : GElem) : List Production :=
  NullProduction :: eliminate_null_and_expand (build_grammar_recursively goal)

theorem nulFreeList_not_mem_null :
    ∀ (cs : GElemList), nulFreeList cs = true → GElem.null ∉ cs.toList
  | .nil, _ => by simp [GElemList.toList]
  | .cons c cs, h => by
      simp only [nulFreeList, Bool.and_eq_true] at h
      simp only [GElemList.toList, List.mem_cons, not_or]
      refine ⟨?_, nulFreeList_not_mem_null cs h.2⟩
      intro hc
      rw [← hc] at h
      simp [nulFree] at h

theorem nulFree_ne_null (c : GElem) (h : nulFree c = true) : c ≠ GElem.null := by
  intro hc
  rw [hc] at h
  simp [nulFree] at h

/-!
Production generation from a `Null`-free goal element only places the
`Null` sentinel in singleton right-hand sides (the `Optional` and
`ZeroOrMore` emitters).
-/

mutual
theorem build_null_singleton :
    ∀ (g : GElem), nulFree g = true →
      ∀ p ∈ build_grammar_recursively g,
        GElem.null ∈ p.rhs → p.rhs = [GElem.null]
  | .atom i, _ => by
      intro p hp hnull
      simp only [build_grammar_recursively, List.mem_singleton] at hp
      subst hp
      simp at hnull
  | .null, h => by simp [nulFree] at h
  | .and_ cs, h => by
      intro p hp hnull
      simp only [nulFree] at h
      rcases List.mem_append.mp hp with h1 | h2
      · exact build_null_singleton_list cs h p h1 hnull
      · simp only [yield_productions, List.mem_singleton] at h2
        subst h2
        exact absurd hnull (nulFreeList_not_mem_null cs h)
  | .or_ cs, h => by
      intro p hp hnull
      simp only [nulFree] at h
      rcases List.mem_append.mp hp with h1 | h2
      · exact build_null_singleton_list cs h p h1 hnull
      · simp only [yield_productions, List.mem_map] at h2
        obtain ⟨e, he, hpe⟩ := h2
        subst hpe
        simp only [List.mem_singleton] at hnull
        rw [← hnull] at he
        exact absurd he (nulFreeList_not_mem_null cs h)
  | .optional c, h => by
      intro p hp hnull
      simp only [nulFree] at h
      rcases List.mem_append.mp hp with h1 | h2
      · exact build_null_singleton c h p h1 hnull
      · simp only [yield_productions, List.mem_cons, List.mem_singleton,
          List.not_mem_nil, or_false] at h2
        rcases h2 with h2 | h2 <;> subst h2
        · rfl
        · simp only [List.mem_singleton] at hnull
          exact absurd hnull.symm (nulFree_ne_null c h)
  | .oneOrMore c, h => by
      intro p hp hnull
      simp only [nulFree] at h
      rcases List.mem_append.mp hp with h1 | h2
      · exact build_null_singleton c h p h1 hnull
      · simp only [yield_productions, List.mem_cons, List.mem_singleton,
          List.not_mem_nil, or_false] at h2
        rcases h2 with h2 | h2 <;> subst h2
        · simp only [List.mem_singleton] at hnull
          exact absurd hnull.symm (nulFree_ne_null c h)
        · simp only [List.mem_cons, List.mem_singleton, List.not_mem_nil,
            or_false] at hnull
          rcases hnull with hnull | hnull
          · exact absurd hnull.symm (nulFree_ne_null c h)
          · exact absurd hnull.symm (by intro hx; cases hx)
  | .zeroOrMore c, h => by
      intro p hp hnull
      simp only [nulFree] at h
      rcases List.mem_append.mp hp with h1 | h2
      · exact build_null_singleton c h p h1 hnull
      · simp only [yield_productions, List.mem_cons, List.mem_singleton,
          List.not_mem_nil, or_false] at h2
        rcases h2 with h2 | h2 | h2 <;> subst h2
        · rfl
        · simp only [List.mem_singleton] at hnull
          exact absurd hnull.symm (nulFree_ne_null c h)
        · simp only [List.mem_cons, List.mem_singleton, List.not_mem_nil,
            or_false] at hnull
          rcases hnull with hnull | hnull
          · exact absurd hnull.symm (nulFree_ne_null c h)
          · exact absurd hnull.symm (by intro hx; cases hx)
theorem build_null_singleton_list :
    ∀ (cs : GElemList), nulFreeList cs = true →
      ∀ p ∈ build_grammar_list cs,
        GElem.null ∈ p.rhs → p.rhs = [GElem.null]
  | .nil, _ => by intro p hp; simp [build_grammar_list] at hp
  | .cons c cs, h => by
      intro p hp hnull
      simp only [nulFreeList, Bool.and_eq_true] at h
      rcases List.mem_append.mp hp with h1 | h2
      · exact build_null_singleton c h.1 p h1 hnull
      · exact build_null_singleton_list cs h.2 p h2 hnull
end

theorem null_deletions_subset (nulls : List GElem) :
    ∀ (rhs : List GElem), ∀ lb ∈ null_deletions nulls rhs, ∀ e ∈ lb.1, e ∈ rhs
  | [] => by intro lb hlb e he; simp [null_deletions] at hlb; rw [hlb] at he; simp at he
  | r :: rest => by
      intro lb hlb e he
      simp only [null_deletions, List.mem_append, List.mem_map] at hlb
      rcases hlb with ⟨lb0, hlb0, hcons⟩ | hkill
      · rw [← hcons] at he
        simp only [List.mem_cons] at he ⊢
        rcases he with he | he
        · exact Or.inl he
        · exact Or.inr (null_deletions_subset nulls rest lb0 hlb0 e he)
      · by_cases hmem : r ∈ nulls
        · simp only [hmem, if_true, List.mem_map] at hkill
          obtain ⟨lb0, hlb0, hdel⟩ := hkill
          rw [← hdel] at he
          exact List.mem_cons_of_mem r (null_deletions_subset nulls rest lb0 hlb0 e he)
        · simp [hmem] at hkill

theorem before_expansion_no_null (ps : List Production)
    (H : ∀ p ∈ ps, GElem.null ∈ p.rhs → p.rhs = [GElem.null]) :
    ∀ p ∈ productions_before_expansion ps, GElem.null ∉ p.rhs := by
  intro p hp hnull
  simp only [productions_before_expansion, List.mem_filter] at hp
  have hrhs := H p hp.1.1 hnull
  have : all_null_rhs p = true := by
    simp [all_null_rhs, hrhs, isNullElem]
  rw [this] at hp
  simp at hp

theorem eliminate_null_singleton (ps : List Production)
    (H : ∀ p ∈ ps, GElem.null ∈ p.rhs → p.rhs = [GElem.null]) :
    ∀ p ∈ eliminate_null_and_expand ps,
      GElem.null ∈ p.rhs → p.rhs = [GElem.null] := by
  intro p hp hnull
  simp only [eliminate_null_and_expand, List.mem_append] at hp
  rcases hp with hp | hp
  · exact absurd hnull (before_expansion_no_null ps H p hp)
  · simp only [List.mem_flatMap] at hp
    obtain ⟨q, hq, hpq⟩ := hp
    simp only [expand_production, List.mem_filterMap] at hpq
    obtain ⟨lb, hlb, heq⟩ := hpq
    by_cases hb : lb.2
    · simp only [hb, if_true] at heq
      by_cases hl : lb.1.length > 0
      · simp only [hl, if_true, Option.some_inj] at heq
        subst heq
        exact absurd
          (null_deletions_subset _ q.rhs lb hlb GElem.null hnull)
          (before_expansion_no_null ps H q hq)
      · simp only [hl, if_false] at heq
        by_cases hnp : (⟨q.lhs, [GElem.null]⟩ : Production) ∈ ps.filter all_null_rhs
        · simp [hnp] at heq
        · simp only [hnp, if_false, Option.some_inj] at heq
          rw [← heq]
    · simp [hb] at heq

/-- C1: after grammar compilation (null elimination, expansion and the
insertion of the sentinel `NULL -> [NULL]` production), no production of
the grammar carries the `Null` sentinel in its RHS unless the RHS is
exactly `[NULL]`; and every production whose RHS consists entirely of
`Null` elements is removed before the expansion step.  The hypothesis
records that the goal element never authors the internal `Null` sentinel
directly, so `Null` enters generated productions only through the
`Optional`/`ZeroOrMore` emitters. -/
theorem c1_null_rhs_invariant (goal : GElem) (h : nulFree goal = true) :
    (∀ p ∈ compiled_productions goal,
        GElem.null ∈ p.rhs → p.rhs = [GElem.null]) ∧
    (∀ p ∈ productions_before_expansion (build_grammar_recursively goal),
        all_null_rhs p = false) := by
  constructor
  · intro p hp hnull
    simp only [compiled_productions, List.mem_cons] at hp
    rcases hp with hp | hp
    · rw [hp]; rfl
    · exact eliminate_null_singleton _ (build_null_singleton goal h) p hp hnull
  · intro p hp
    simp only [productions_before_expansion, List.mem_filter] at hp
    have := hp.1.2
    simpa using this

/-- Concrete goal element used to witness C1:
`And([atom0, Optional(atom1)])`. -/
def c1WitnessGoal : GElem :=
  .and_ (.cons (.atom 0) (.cons (.optional (.atom 1)) .nil))

/-- Witness for C1 at the concrete goal `And([atom0, Optional(atom1)])`. -/
theorem c1_null_rhs_invariant_witness :
    nulFree c1WitnessGoal = true ∧
    ((∀ p ∈ compiled_productions c1WitnessGoal,
        GElem.null ∈ p.rhs → p.rhs = [GElem.null]) ∧
     (∀ p ∈ productions_before_expansion
          (build_grammar_recursively c1WitnessGoal),
        all_null_rhs p = false)) :=
  ⟨by decide, c1_null_rhs_invariant c1WitnessGoal (by decide)⟩

/-!
Edges and the chart (classes `Edge` and `Chart`).  An edge is
`(start, end, production, dot)`; the Python attribute `end` is a reserved
word in Lean and is called `stop` here.  The chart stores a set of edges
(the 2-D `edges[start][end]` index collapses to one list, which the claims
never index by span) and the `edge2backpointers` map, an association list
from an edge to its list of recorded child-edge tuples.
-/

structure Edge where
  start : Nat
  stop : Nat
  prod : Production
  dot : Nat
deriving DecidableEq

abbrev BackTuple := List Edge

structure Chart where
  edges : List Edge
  edge2backpointers : List (Edge × List BackTuple)

/-- Dictionary lookup `edge2backpointers[e]` (`None` when `e` is not a
key). -/
def bp_lookup (bps : List (Edge × List BackTuple)) (e : Edge) :
    Option (List BackTuple) :=
  (bps.find? (fun kv => kv.1 == e)).map (fun kv => kv.2)

/-- Dictionary store `edge2backpointers[e] = v`. -/
def bp_set (bps : List (Edge × List BackTuple)) (e : Edge)
    (v : List BackTuple) : List (Edge × List BackTuple) :=
  match bps with
  | [] => [(e, v)]
  | kv :: rest => if kv.1 == e then (e, v) :: rest else kv :: bp_set rest e v

/-- The key-creation step of `Chart.add_edge`: if `edge` is not yet a key
of `edge2backpointers`, bind it to the empty tuple set. -/
def bp_with_key (bps : List (Edge × List BackTuple)) (edge : Edge) :
    List (Edge × List BackTuple) :=
  if (bp_lookup bps edge).isSome then bps else bp_set bps edge []

/-- The backpointer update of `Chart.add_edge` when a child edge distinct
from `edge` is supplied: create the key for `edge`, then add one tuple per
existing tuple of `prev_edge` (each extended by `child`), or the singleton
`(child,)` when `prev_edge` is not a backpointer key (in particular when
it is `None`).  The lookup of `prev_edge` happens after the key creation,
exactly as in the source. -/
def add_edge_bps (c : Chart) (edge : Edge) (prev_edge : Option Edge)
    (child : Edge) : List (Edge × List BackTuple) :=
  let bps0 := bp_with_key c.edge2backpointers edge
  let cur := (bp_lookup bps0 edge).getD []
  let newTuples :=
    match prev_edge with
    | some prev =>
        match bp_lookup bps0 prev with
        | some prevTuples => prevTuples.map (fun t => t ++ [child])
        | none => [[child]]
    | none => [[child]]
  bp_set bps0 edge (cur ++ newTuples)

/-- Method `Chart.add_edge(edge, prev_edge, child_edge)`: insert `edge`
into the edge table if new (the return flag), then, when a `child_edge` is
given and differs from `edge`, record backpointer tuples via
`add_edge_bps`. -/
def add_edge (c : Chart) (edge : Edge) (prev_edge : Option Edge)
    (child_edge : Option Edge) : Chart × Bool :=
  let ret := !(c.edges.contains edge)
  let edges1 := if c.edges.contains edge then c.edges else c.edges ++ [edge]
  match child_edge with
  | none => (⟨edges1, c.edge2backpointers⟩, ret)
  | some child =>
      if edge = child then (⟨edges1, c.edge2backpointers⟩, ret)
      else (⟨edges1, add_edge_bps c edge prev_edge child⟩, ret)

/-- The stated backpointer policy of `Chart.add_edge` callers (the
`CompleteRule`): a backpointer-recording call passes a `prev_edge` whose
forwarding produced `edge` (so `edge.dot = prev_edge.dot + 1`), and when
`prev_edge` has no backpointers yet its dot is 0. -/
def policy_ok (c : Chart) (edge : Edge) (prev_edge child_edge : Option Edge) :
    Bool :=
  match child_edge with
  | none => true
  | some _ =>
      match prev_edge with
      | none => false
      | some prev =>
          edge.dot == prev.dot + 1 &&
          (match bp_lookup c.edge2backpointers prev with
           | none => prev.dot == 0
           | some _ => true)

/-- Charts reachable from the empty chart by `add_edge` calls that follow
the backpointer policy. -/
inductive ReachableChart : Chart → Prop where
  | empty : ReachableChart ⟨[], []⟩
  | step (c : Chart) (edge : Edge) (prev_edge child_edge : Option Edge)
      (hc : ReachableChart c)
      (hpol : policy_ok c edge prev_edge child_edge = true) :
      ReachableChart (add_edge c edge prev_edge child_edge).1

/-- Every recorded backpointer tuple of an edge has length equal to the
edge's dot. -/
def bp_invariant (c : Chart) : Prop :=
  ∀ e ts, bp_lookup c.edge2backpointers e = some ts →
    ∀ t ∈ ts, t.length = e.dot

theorem bp_lookup_cons (kv : Edge × List BackTuple)
    (rest : List (Edge × List BackTuple)) (p : Edge) :
    bp_lookup (kv :: rest) p =
      if kv.1 = p then some kv.2 else bp_lookup rest p := by
  by_cases h : kv.1 = p
  · rw [if_pos h]
    unfold bp_lookup
    rw [List.find?_cons_of_pos _ (by simpa using h)]
    rfl
  · rw [if_neg h]
    unfold bp_lookup
    rw [List.find?_cons_of_neg _ (by simpa using h)]

theorem bp_lookup_set (bps : List (Edge × List BackTuple)) (e : Edge)
    (v : List BackTuple) (p : Edge) :
    bp_lookup (bp_set bps e v) p = if p = e then some v else bp_lookup bps p := by
  induction bps with
  | nil =>
      show bp_lookup [(e, v)] p = _
      rw [bp_lookup_cons]
      by_cases h : p = e
      · rw [if_pos h, if_pos h.symm]
      · rw [if_neg h, if_neg (fun hx => h hx.symm)]
  | cons kv rest ih =>
      by_cases hk : kv.1 = e
      · have : bp_set (kv :: rest) e v = (e, v) :: rest := by
          unfold bp_set
          rw [if_pos (by simpa using hk)]
        rw [this, bp_lookup_cons, bp_lookup_cons]
        by_cases h : p = e
        · rw [if_pos h.symm, if_pos h]
        · rw [if_neg (fun hx => h hx.symm), if_neg h,
            if_neg (fun hx => h (hx.symm.trans hk))]
      · have : bp_set (kv :: rest) e v = kv :: bp_set rest e v := by
          simp only [bp_set]
          rw [if_neg (by simpa using hk)]
        rw [this, bp_lookup_cons, bp_lookup_cons, ih]
        by_cases hp : kv.1 = p
        · rw [if_pos hp, if_pos hp, if_neg (fun hx => hk (hp.trans hx))]
        · rw [if_neg hp, if_neg hp]

theorem bp_lookup_with_key_other (bps : List (Edge × List BackTuple))
    (edge p : Edge) (hp : p ≠ edge) :
    bp_lookup (bp_with_key bps edge) p = bp_lookup bps p := by
  unfold bp_with_key
  by_cases hs : (bp_lookup bps edge).isSome
  · rw [if_pos hs]
  · rw [if_neg hs, bp_lookup_set, if_neg hp]

theorem bp_lookup_with_key_self (bps : List (Edge × List BackTuple))
    (edge : Edge) :
    bp_lookup (bp_with_key bps edge) edge =
      some ((bp_lookup bps edge).getD []) := by
  unfold bp_with_key
  rcases hl : bp_lookup bps edge with _ | old
  · simp only [Option.isSome_none, Bool.false_eq_true, if_false]
    rw [bp_lookup_set, if_pos rfl]
    rfl
  · simp only [Option.isSome_some, if_true]
    rw [hl]
    rfl

theorem add_edge_bps_invariant (c : Chart) (edge prev child : Edge)
    (hdot : edge.dot = prev.dot + 1)
    (hnone : bp_lookup c.edge2backpointers prev = none → prev.dot = 0)
    (hinv : bp_invariant c) :
    ∀ e ts, bp_lookup (add_edge_bps c edge (some prev) child) e = some ts →
      ∀ t ∈ ts, t.length = e.dot := by
  intro e ts hts t ht
  have hne : prev ≠ edge := by
    intro h
    rw [h] at hdot
    omega
  unfold add_edge_bps at hts
  simp only [] at hts
  rw [bp_lookup_set] at hts
  by_cases he : e = edge
  · rw [if_pos he] at hts
    subst he
    have hts' := Option.some_inj.mp hts
    rw [← hts'] at ht
    rcases List.mem_append.mp ht with hcur | hnew
    · rw [bp_lookup_with_key_self] at hcur
      simp only [Option.getD_some] at hcur
      rcases hl : bp_lookup c.edge2backpointers e with _ | old
      · rw [hl] at hcur
        simp at hcur
      · rw [hl] at hcur
        simp only [Option.getD_some] at hcur
        exact hinv e old hl t hcur
    · rw [bp_lookup_with_key_other c.edge2backpointers e prev hne] at hnew
      rcases hlp : bp_lookup c.edge2backpointers prev with _ | prevTs
      · rw [hlp] at hnew
        simp only [List.mem_singleton] at hnew
        rw [hnew]
        simp [hdot, hnone hlp]
      · rw [hlp] at hnew
        simp only [List.mem_map] at hnew
        obtain ⟨t0, ht0, hts0⟩ := hnew
        rw [← hts0]
        have := hinv prev prevTs hlp t0 ht0
        simp [this, hdot]
  · rw [if_neg he, bp_lookup_with_key_other c.edge2backpointers edge e he]
      at hts
    exact hinv e ts hts t ht

theorem add_edge_preserves_bp_invariant (c : Chart) (edge : Edge)
    (prev_edge child_edge : Option Edge)
    (hpol : policy_ok c edge prev_edge child_edge = true)
    (hinv : bp_invariant c) :
    bp_invariant (add_edge c edge prev_edge child_edge).1 := by
  match child_edge with
  | none => exact hinv
  | some child =>
      by_cases hec : edge = child
      · intro e ts hts
        simp only [add_edge, if_pos hec] at hts
        exact hinv e ts hts
      · match prev_edge, hpol with
        | some prev, hpol =>
          simp only [policy_ok, Bool.and_eq_true, beq_iff_eq] at hpol
          intro e ts hts
          simp only [add_edge, if_neg hec] at hts
          refine add_edge_bps_invariant c edge prev child hpol.1 ?_ hinv e ts
            hts
          intro hlp
          have := hpol.2
          rw [hlp] at this
          simpa using this

theorem reachable_bp_invariant (c : Chart) (hr : ReachableChart c) :
    bp_invariant c := by
  induction hr with
  | empty => intro e ts hts; simp [bp_lookup, List.find?] at hts
  | step c edge prev_edge child_edge hc hpol ih =>
      exact add_edge_preserves_bp_invariant c edge prev_edge child_edge hpol ih

/-- C2: in every chart reachable by `add_edge` calls following the stated
backpointer policy, every backpointer tuple recorded for an edge `e` with
`e.dot > 0` has length exactly `e.dot`. -/
theorem c2_backpointer_tuple_lengths (c : Chart) (hr : ReachableChart c)
    (e : Edge) (ts : List BackTuple)
    (hts : bp_lookup c.edge2backpointers e = some ts) (hdot : e.dot > 0) :
    ∀ t ∈ ts, t.length = e.dot :=
  fun t ht => reachable_bp_invariant c hr e ts hts t ht

/-- Concrete production `A -> [atom0, atom1]` for the C2 witness chart. -/
def c2Prod : Production :=
  ⟨.and_ (.cons (.atom 0) (.cons (.atom 1) .nil)), [.atom 0, .atom 1]⟩

/-- Predicted edge `[0,0] A -> * atom0 atom1`. -/
def c2Predicted : Edge := ⟨0, 0, c2Prod, 0⟩

/-- Scanned (complete) terminal edge `[0,1] atom0 -> atom0 *`. -/
def c2Child : Edge := ⟨0, 1, ⟨.atom 0, [.atom 0]⟩, 1⟩

/-- Forwarded edge `[0,1] A -> atom0 * atom1`. -/
def c2Moved : Edge := ⟨0, 1, c2Prod, 1⟩

/-- The chart built by predicting, scanning, then completing. -/
def c2WitnessChart : Chart :=
  (add_edge
    (add_edge (add_edge ⟨[], []⟩ c2Predicted none none).1 c2Child none none).1
    c2Moved (some c2Predicted) (some c2Child)).1

/-- Witness for C2 on a three-step reachable chart: the single recorded
tuple of the forwarded edge has length equal to its dot. -/
theorem c2_backpointer_tuple_lengths_witness :
    List.length [c2Child] = c2Moved.dot :=
  c2_backpointer_tuple_lengths c2WitnessChart
    (ReachableChart.step _ c2Moved (some c2Predicted) (some c2Child)
      (ReachableChart.step _ c2Child none none
        (ReachableChart.step _ c2Predicted none none
          ReachableChart.empty (by decide))
        (by decide))
      (by decide))
    c2Moved [[c2Child]] (by decide) (by decide)
    [c2Child] (List.mem_singleton_self [c2Child])

/-- C10: an `add_edge` call with no child edge, or whose child edge equals
the inserted edge itself, leaves the backpointer map unchanged; the edge
is still present in the edge table afterwards and the returned novelty
flag is the same membership test in both cases. -/
theorem c10_frame_backpointers (c : Chart) (edge : Edge)
    (prev_edge : Option Edge) :
    ((add_edge c edge prev_edge none).1.edge2backpointers =
        c.edge2backpointers ∧
     (add_edge c edge prev_edge (some edge)).1.edge2backpointers =
        c.edge2backpointers) ∧
    ((add_edge c edge prev_edge none).2 = !(c.edges.contains edge) ∧
     (add_edge c edge prev_edge (some edge)).2 = !(c.edges.contains edge)) ∧
    (edge ∈ (add_edge c edge prev_edge none).1.edges ∧
     edge ∈ (add_edge c edge prev_edge (some edge)).1.edges) := by
  have hmem : edge ∈
      (if c.edges.contains edge then c.edges else c.edges ++ [edge]) := by
    by_cases h : c.edges.contains edge
    · rw [if_pos h]
      exact List.mem_of_elem_eq_true h
    · rw [if_neg h]
      exact List.mem_append_right _ (List.mem_singleton_self edge)
  have hself : add_edge c edge prev_edge (some edge) =
      (⟨if c.edges.contains edge then c.edges else c.edges ++ [edge],
        c.edge2backpointers⟩, !(c.edges.contains edge)) := by
    simp only [add_edge, if_true]
  refine ⟨⟨rfl, ?_⟩, ⟨rfl, ?_⟩, ⟨hmem, ?_⟩⟩ <;> rw [hself]
  exact hmem

/-- Method `Edge.merge_and_forward_dot`: asserts `edge.start == self.end`
and `self.dot < rhs_len`, then returns the merged edge
`(self.start, edge.end, self.production, self.dot + 1)`.  Assertion
failure is modelled as `none`. -/
def merge_and_forward_dot (self other : Edge) : Option Edge :=
  if other.start = self.stop then
    if self.dot < self.prod.rhs.length then
      some ⟨self.start, other.stop, self.prod, self.dot + 1⟩
    else none
  else none

/-- C5: when `self.end == other.start` and `self.dot < |RHS|`,
`merge_and_forward_dot` returns the edge
`(self.start, other.end, self.production, self.dot + 1)`; when
`self.end != other.start` it fails the assertion instead of returning an
edge. -/
theorem c5_merge_and_forward (self other : Edge) :
    (self.stop = other.start → self.dot < self.prod.rhs.length →
      merge_and_forward_dot self other =
        some ⟨self.start, other.stop, self.prod, self.dot + 1⟩) ∧
    (self.stop ≠ other.start → merge_and_forward_dot self other = none) := by
  constructor
  · intro h1 h2
    simp [merge_and_forward_dot, h1.symm, h2]
  · intro h1
    have : other.start ≠ self.stop := fun hx => h1 hx.symm
    simp [merge_and_forward_dot, this]

/-- Witness for C5: a successful merge and a mismatched-position failure
at concrete edges. -/
theorem c5_merge_and_forward_witness :
    merge_and_forward_dot ⟨0, 1, c2Prod, 0⟩ ⟨1, 2, c2Prod, 2⟩ =
      some ⟨0, 2, c2Prod, 1⟩ ∧
    merge_and_forward_dot ⟨0, 1, c2Prod, 0⟩ ⟨2, 3, c2Prod, 2⟩ = none :=
  ⟨(c5_merge_and_forward ⟨0, 1, c2Prod, 0⟩ ⟨1, 2, c2Prod, 2⟩).1 rfl (by decide),
   (c5_merge_and_forward ⟨0, 1, c2Prod, 0⟩ ⟨2, 3, c2Prod, 2⟩).2 (by decide)⟩

/-!
Parse trees (class `TreeNode`).  A node holds its list of children and the
lexicon string of its span; the `parent` edge is irrelevant to the size
computation and to tree selection and is omitted.
-/

inductive TreeNode where
  | mk (children : List TreeNode) (lexicon : String)

/-!
Method `TreeNode.size`: the node counts 1 and, unless it is a leaf, adds
the sizes of all children.
-/

mutual
def TreeNode.size : TreeNode → Nat
  | .mk children _ => 1 + TreeNode.sizeList children
def TreeNode.sizeList : List TreeNode → Nat
  | [] => 0
  | c :: cs => TreeNode.size c + TreeNode.sizeList cs
end

theorem sizeList_eq_sum_map (cs : List TreeNode) :
    TreeNode.sizeList cs = (cs.map TreeNode.size).sum := by
  induction cs with
  | nil => rfl
  | cons c cs ih => simp [TreeNode.sizeList, ih]

/-!
Python's `sorted` on `(size, tree)` pairs, embedded as a stable insertion
sort on the first component.  Python compares the tuples lexicographically
and the head of the result is a pair of minimal first component, which is
the only property `best_tree_with_parse_result` relies on.
-/

def insert_by_size (x : Nat × TreeNode) :
    List (Nat × TreeNode) → List (Nat × TreeNode)
  | [] => [x]
  | y :: ys => if x.1 < y.1 then x :: y :: ys else y :: insert_by_size x ys

def sorted_by_size : List (Nat × TreeNode) → List (Nat × TreeNode)
  | [] => []
  | x :: xs => insert_by_size x (sorted_by_size xs)

/-- Method `Chart.best_tree_with_parse_result`: on an empty tree list
raise `ParseException` (modelled as `none`); otherwise sort the
`(t.size(), t)` pairs and return the tree of the first one.  (The parse
result built from the best tree is orthogonal to this claim and
omitted.) -/
def best_tree_with_parse_result (trees : List (Nat × TreeNode)) :
    Option TreeNode :=
  if trees.length = 0 then none
  else
    ((sorted_by_size (trees.map (fun it => (it.2.size, it.2)))).head?).map
      (fun st => st.2)

theorem mem_insert_by_size (x z : Nat × TreeNode)
    (l : List (Nat × TreeNode)) :
    z ∈ insert_by_size x l ↔ z = x ∨ z ∈ l := by
  induction l with
  | nil => simp [insert_by_size]
  | cons y ys ih =>
      simp only [insert_by_size]
      by_cases h : x.1 < y.1
      · rw [if_pos h]
        simp
      · rw [if_neg h]
        simp only [List.mem_cons, ih]
        tauto

theorem mem_sorted_by_size (z : Nat × TreeNode) (l : List (Nat × TreeNode)) :
    z ∈ sorted_by_size l ↔ z ∈ l := by
  induction l with
  | nil => simp [sorted_by_size]
  | cons x xs ih =>
      simp only [sorted_by_size, mem_insert_by_size, ih, List.mem_cons]

theorem sorted_by_size_head_min (l : List (Nat × TreeNode))
    (y : Nat × TreeNode) (hy : (sorted_by_size l).head? = some y) :
    ∀ z ∈ l, y.1 ≤ z.1 := by
  induction l generalizing y with
  | nil => simp [sorted_by_size] at hy
  | cons x xs ih =>
      intro z hz
      simp only [sorted_by_size] at hy
      rcases hs : sorted_by_size xs with _ | ⟨w, ws⟩
      · rw [hs] at hy
        simp only [insert_by_size, List.head?_cons, Option.some_inj] at hy
        subst hy
        rcases List.mem_cons.mp hz with hz | hz
        · rw [hz]
        · rw [← mem_sorted_by_size, hs] at hz
          simp at hz
      · rw [hs] at hy
        have hw : ∀ u ∈ xs, w.1 ≤ u.1 := ih w (by rw [hs]; rfl)
        simp only [insert_by_size] at hy
        by_cases hxw : x.1 < w.1
        · rw [if_pos hxw] at hy
          simp only [List.head?_cons, Option.some_inj] at hy
          subst hy
          rcases List.mem_cons.mp hz with hz | hz
          · rw [hz]
          · exact Nat.le_of_lt (Nat.lt_of_lt_of_le hxw (hw z hz))
        · rw [if_neg hxw] at hy
          simp only [List.head?_cons, Option.some_inj] at hy
          subst hy
          rcases List.mem_cons.mp hz with hz | hz
          · rw [hz]
            exact Nat.le_of_not_lt hxw
          · exact hw z hz

/-- C3: `best_tree_with_parse_result` fails (raises `ParseException`,
modelled as `none`) exactly on the empty list; on a non-empty list it
returns a tree whose size is minimal among all candidate trees; and the
tree-size law `size(node) = 1 + sum of the children's sizes` holds (a
leaf has size 1). -/
theorem c3_best_tree_minimal (trees : List (Nat × TreeNode)) :
    (trees = [] → best_tree_with_parse_result trees = none) ∧
    (trees ≠ [] → ∃ t, best_tree_with_parse_result trees = some t ∧
      ∀ p ∈ trees, t.size ≤ p.2.size) ∧
    (∀ cs lx, TreeNode.size (.mk cs lx) = 1 + (cs.map TreeNode.size).sum) := by
  refine ⟨?_, ?_, ?_⟩
  · intro h
    rw [h]
    rfl
  · intro h
    set mapped := trees.map (fun it => (it.2.size, it.2)) with hmapped
    have hm_ne : mapped ≠ [] := by
      rw [hmapped]
      simpa using h
    have hs_ne : sorted_by_size mapped ≠ [] := by
      intro hnil
      rcases List.exists_mem_of_ne_nil mapped hm_ne with ⟨z, hz⟩
      rw [← mem_sorted_by_size, hnil] at hz
      simp at hz
    rcases hsrt : sorted_by_size mapped with _ | ⟨y, ys⟩
    · exact absurd hsrt hs_ne
    have hy : (sorted_by_size mapped).head? = some y := by rw [hsrt]; rfl
    have hymem : y ∈ mapped := by
      rw [← mem_sorted_by_size, hsrt]
      exact List.mem_cons_self y ys
    have hykey : y.1 = y.2.size := by
      rw [hmapped] at hymem
      rcases List.mem_map.mp hymem with ⟨it, _, hit⟩
      rw [← hit]
    refine ⟨y.2, ?_, ?_⟩
    · rw [best_tree_with_parse_result, if_neg (by simpa using h), ← hmapped,
        hy]
      rfl
    · intro p hp
      have hpm : (p.2.size, p.2) ∈ mapped := by
        rw [hmapped]
        exact List.mem_map.mpr ⟨p, hp, rfl⟩
      have := sorted_by_size_head_min mapped y hy (p.2.size, p.2) hpm
      rw [hykey] at this
      exact this
  · intro cs lx
    rw [TreeNode.size, sizeList_eq_sum_map]

/-- Concrete tree list for the C3 witness: a leaf of size 1 and a
one-child tree of size 2. -/
def c3WitnessTrees : List (Nat × TreeNode) :=
  [(1, .mk [] "a"), (2, .mk [.mk [] "b"] "b c")]

/-- Witness for C3 at a concrete two-element tree list. -/
theorem c3_best_tree_minimal_witness :
    ∃ t, best_tree_with_parse_result c3WitnessTrees = some t ∧
      ∀ p ∈ c3WitnessTrees, t.size ≤ p.2.size :=
  (c3_best_tree_minimal c3WitnessTrees).2.1 (List.cons_ne_nil _ _)

/-!
Regex terminals (class `RegexCs`).  A compiled regex object is embedded as
its `re.match` behaviour: a function from the input string to the end
offset of a match anchored at position 0, or `none` when there is no
match.  `RegexCs.__init__` has two branches: a string pattern is compiled
with `^`/`$` anchors added when `match_whole` is set, while a precompiled
regex object is stored as-is, with no anchoring.  `RegexCs._parse` calls
`re.match` and returns `True` on any match; its partial-match rejection is
commented out in the source ("blocked by ^ + ... + $ patterns above").
-/

structure RegexCs where
  re : String → Option Nat
  match_whole : Bool

/-- Constructor branch of `RegexCs.__init__` for a string pattern:
with `match_whole` the compiled pattern is `"^" + pattern + "$"`;
`compile` stands for the external `re.compile`. -/
def RegexCs.ofString (compile : String → (String → Option Nat))
    (pattern : String) (match_whole : Bool) : RegexCs :=
  if match_whole then ⟨compile ("^" ++ pattern ++ "$"), true⟩
  else ⟨compile pattern, false⟩

/-- Constructor branch of `RegexCs.__init__` for a precompiled regex
object: `self.re = pattern`, stored without anchoring regardless of
`match_whole`. -/
def RegexCs.ofCompiled (m : String → Option Nat) (match_whole : Bool) :
    RegexCs :=
  ⟨m, match_whole⟩

/-- Method `RegexCs._parse`: raise `ParseException` when `re.match` finds
nothing, return `True` otherwise (no partial-match check). -/
def RegexCs.parseRegex (r : RegexCs) (s : String) : Bool := (r.re s).isSome

/-- A matcher accepts the entire input when the match it reports consumes
every character. -/
def matches_entire (m : String → Option Nat) (s : String) : Prop :=
  m s = some s.length

/-- Model of `re.compile("a")`: matches one leading character `a`. -/
def matcherLitA : String → Option Nat :=
  fun s => if s.data.head? = some 'a' then some 1 else none

/-- C4 (failing input): a regex terminal built from the precompiled
pattern `re.compile("a")` with whole-match enabled accepts the input
`"ab"`, although the pattern does not match the entire input (`"ab"` has
the unmatched trailing character `b` and differs from `"a"`).  The
precompiled branch of `RegexCs.__init__` adds no anchors, and the
partial-match check of `_parse` is commented out, contradicting the
documented meaning of `match_whole`. -/
theorem c4_precompiled_whole_match_bug :
    (RegexCs.ofCompiled matcherLitA true).parseRegex "ab" = true ∧
    (RegexCs.ofCompiled matcherLitA true).match_whole = true ∧
    ¬ matches_entire matcherLitA "ab" ∧
    ("ab" : String) ≠ "a" := by
  refine ⟨rfl, rfl, ?_, by decide⟩
  intro h
  rw [matches_entire] at h
  revert h
  decide

/-- In contrast, the string-pattern branch does anchor: whenever the
external compile of an anchored pattern reports only whole-string
matches, the element accepts only entire matches of its stored pattern. -/
theorem c4_string_pattern_anchored (compile : String → (String → Option Nat))
    (pattern s : String)
    (hanchor : ∀ u n, compile ("^" ++ pattern ++ "$") u = some n →
      n = u.length)
    (hparse : (RegexCs.ofString compile pattern true).parseRegex s = true) :
    matches_entire (compile ("^" ++ pattern ++ "$")) s := by
  have hp : (compile ("^" ++ pattern ++ "$") s).isSome = true := by
    simpa [RegexCs.ofString, RegexCs.parseRegex] using hparse
  rcases hm : compile ("^" ++ pattern ++ "$") s with _ | n
  · rw [hm] at hp
    cases hp
  · rw [matches_entire, hm, hanchor s n hm]

/-- A matcher accepting exactly the string `"a"`, whole-string only;
stands for the compile of the anchored pattern in the C4 witness. -/
def fullMatcherA : String → Option Nat :=
  fun s => if s = "a" then some s.length else none

/-- Witness for the anchored string-pattern contrast theorem, at a
full-string matcher accepting exactly `"a"`. -/
theorem c4_string_pattern_anchored_witness :
    matches_entire ((fun _ : String => fullMatcherA) ("^" ++ "a" ++ "$"))
      "a" :=
  c4_string_pattern_anchored (fun _ => fullMatcherA) "a" "a"
    (by
      intro u n h
      simp only [fullMatcherA] at h
      by_cases hu : u = "a"
      · rw [if_pos hu] at h
        exact (Option.some_inj.mp h).symm
      · rw [if_neg hu] at h
        cases h)
    (by decide)

/-!
The repetition operator `GrammarElement.__mul__`.  Its argument is an
`int`, a tuple/list whose components are `int` or `None`, or anything
else; components of other types (`float`, `str`, ...) are `other`.  The
returned element shapes (`And` lists, `Optional`, `OneOrMore`,
`ZeroOrMore` stacks over the receiver `base`) are reproduced exactly;
`ValueError` is `Except.error`.
-/

inductive PyComp where
  | int (n : Int)
  | none_
  | other
deriving DecidableEq

inductive PyMulArg where
  | int (n : Int)
  | tupleList (comps : List PyComp)
  | other
deriving DecidableEq

inductive RepElem where
  | base
  | andL (xs : List RepElem)
  | optional (x : RepElem)
  | oneOrMore (x : RepElem)
  | zeroOrMore (x : RepElem)

/-- Body of the tuple/list arm of `__mul__` once the lower bound is known
to be the integer `m`: `m < 0` raises, an unbounded range builds
`ZeroOrMore`/`OneOrMore`/`self * m + ZeroOrMore(self)` (the last a nested
`And`, as produced by `__add__`), an integer `n >= m` builds the
`Optional`/`And` shapes, and anything else raises. -/
def mul_range_int (m : Int) (n0 : PyComp) : Except Unit RepElem :=
  if m < 0 then .error ()
  else
    match n0 with
    | .none_ =>
        if m = 0 then .ok (.zeroOrMore .base)
        else if m = 1 then .ok (.oneOrMore .base)
        else .ok (.andL [.andL (List.replicate m.toNat .base),
                         .zeroOrMore .base])
    | .int n =>
        if n ≥ m then
          if m = 0 ∧ n = 1 then .ok (.optional .base)
          else if m = n then .ok (.andL (List.replicate m.toNat .base))
          else .ok (.andL (List.replicate m.toNat .base ++
            List.replicate (n - m).toNat (.optional .base)))
        else .error ()
    | .other => .error ()

/-- The tuple/list arm of `__mul__` after destructuring into `(m, n)`
(`n = None` for a singleton): substitute 0 for a `None` lower bound,
raise `ValueError` when `type(m) is not int`, then continue in
`mul_range_int`. -/
def mul_range (m0 n0 : PyComp) : Except Unit RepElem :=
  match m0 with
  | .other => .error ()
  | .none_ => mul_range_int 0 n0
  | .int m => mul_range_int m n0

/-- Method `GrammarElement.__mul__`: an integer multiplier returns the
element itself (1), an `And` of copies (above 1) or raises; a tuple/list
destructures by length 1 or 2 and continues in `mul_range`; any other
length or argument type raises `ValueError`. -/
def mul : PyMulArg → Except Unit RepElem
  | .int n =>
      if n = 1 then .ok .base
      else if n > 1 then .ok (.andL (List.replicate n.toNat .base))
      else .error ()
  | .tupleList comps =>
      match comps with
      | [m0] => mul_range m0 .none_
      | [m0, n0] => mul_range m0 n0
      | _ => .error ()
  | .other => .error ()

/-- Whether an embedded call raised `ValueError`. -/
def raisedB : Except Unit RepElem → Bool
  | .error _ => true
  | .ok _ => false

/-- Whether `e * x` raises `ValueError`. -/
def mul_raises (x : PyMulArg) : Bool := raisedB (mul x)

/-- The raise condition exactly as claim C6 words it: the multiplier is a
non-integer that is not a tuple/list, a negative or zero integer, a
tuple/list of length other than 1 or 2, or an integer range `(m, n)` with
`n < m`.  This definition follows the claim, not the source, and is
compared against the source's behaviour. -/
def claimC6_raise_condition : PyMulArg → Bool
  | .int n => decide (n ≤ 0)
  | .other => true
  | .tupleList comps =>
      if comps.length ≠ 1 ∧ comps.length ≠ 2 then true
      else
        match comps with
        | [.int m, .int n] => decide (n < m)
        | _ => false

/-- C6 (counterexample): the multiplier `(-1, 2)` — a two-element integer
range with `n ≥ m` — raises `ValueError` in the code (because `m < 0`),
yet none of the claim's raise conditions covers it. -/
theorem c6_claim_counterexample :
    mul_raises (.tupleList [.int (-1), .int 2]) = true ∧
    claimC6_raise_condition (.tupleList [.int (-1), .int 2]) = false := by
  decide

/-- Range-start check of the amended condition: after `None` is replaced
by 0, `m` raises when it is not an integer or is negative. -/
def range_start_bad : PyComp → Bool
  | .other => true
  | .none_ => false
  | .int a => decide (a < 0)

/-- The integer value of the range start after `None` is replaced by 0
(irrelevant for `other`, which has already raised). -/
def range_start_val : PyComp → Int
  | .int a => a
  | _ => 0

/-- Range-stop check of the amended condition: `n` raises when it is
neither `None` nor an integer at least the (substituted) start. -/
def range_stop_bad (m0 n0 : PyComp) : Bool :=
  match n0 with
  | .none_ => false
  | .other => true
  | .int b => decide (b < range_start_val m0)

/-- The amended raise condition: as the claim, plus the cases the claim
misses — a tuple/list whose start component is negative or not an
integer/None, and a two-element tuple/list whose stop component is not an
integer/None. -/
def amendedC6_raise_condition : PyMulArg → Bool
  | .int n => decide (n ≤ 0)
  | .other => true
  | .tupleList [m0] => range_start_bad m0
  | .tupleList [m0, n0] => range_start_bad m0 || range_stop_bad m0 n0
  | .tupleList _ => true

theorem mul_range_int_raises (m : Int) (n0 : PyComp) :
    raisedB (mul_range_int m n0) =
      (decide (m < 0) ||
        match n0 with
        | .none_ => false
        | .other => true
        | .int b => decide (b < m)) := by
  simp only [mul_range_int]
  by_cases hm : m < 0
  · rw [if_pos hm, decide_eq_true hm]
    rfl
  · rw [if_neg hm, decide_eq_false hm]
    cases n0 with
    | none_ =>
        dsimp only
        simp only [apply_ite raisedB]
        simp [raisedB]
    | other => rfl
    | int n =>
        dsimp only
        by_cases hn : n ≥ m
        · rw [if_pos hn, decide_eq_false (by omega : ¬ n < m)]
          simp only [apply_ite raisedB]
          simp [raisedB]
        · rw [if_neg hn, decide_eq_true (by omega : n < m)]
          rfl

theorem mul_range_raises (m0 n0 : PyComp) :
    raisedB (mul_range m0 n0) =
      (range_start_bad m0 || range_stop_bad m0 n0) := by
  match m0 with
  | .other => rfl
  | .none_ =>
      show raisedB (mul_range_int 0 n0) = _
      rw [mul_range_int_raises]
      match n0 with
      | .none_ => rfl
      | .other => rfl
      | .int b => rfl
  | .int m =>
      show raisedB (mul_range_int m n0) = _
      rw [mul_range_int_raises]
      match n0 with
      | .none_ => rfl
      | .other => rfl
      | .int b => rfl

/-- C6 (amended): `e * x` raises `ValueError` exactly when `x` is a
non-integer that is not a tuple/list, a nonpositive integer, a tuple/list
of length other than 1 or 2, a tuple/list whose start component is a
negative integer or neither an integer nor `None`, or a two-element
tuple/list whose stop component is below the (`None`-substituted) start
or neither an integer nor `None`; on every other argument it returns a
grammar element without raising. -/
theorem c6_mul_raise_characterization (x : PyMulArg) :
    mul_raises x = amendedC6_raise_condition x := by
  match x with
  | .other => rfl
  | .int n =>
      simp only [mul_raises, mul, amendedC6_raise_condition]
      by_cases h1 : n = 1
      · rw [if_pos h1, decide_eq_false (by omega : ¬ n ≤ 0)]
        rfl
      · rw [if_neg h1]
        by_cases h2 : n > 1
        · rw [if_pos h2, decide_eq_false (by omega : ¬ n ≤ 0)]
          rfl
        · rw [if_neg h2, decide_eq_true (by omega : n ≤ 0)]
          rfl
  | .tupleList [] => rfl
  | .tupleList [m0] =>
      show raisedB (mul_range m0 .none_) = _
      rw [mul_range_raises]
      simp [range_stop_bad, amendedC6_raise_condition]
  | .tupleList [m0, n0] =>
      show raisedB (mul_range m0 n0) = _
      rw [mul_range_raises]
      rfl
  | .tupleList (_ :: _ :: _ :: _) => rfl

/-!
Whitespace handling.  `strip_string` is
`re.sub('[\t\s]+', ' ', string).strip()`: every maximal run of whitespace
collapses to one space, then the ends are stripped.  The regex class `\s`
is space, tab, newline, carriage return, form feed and vertical tab.
-/

def isPyWs (c : Char) : Bool :=
  c = ' ' || c = '\t' || c = '\n' || c = '\r' || c = '\x0c' || c = '\x0b'

/-- One pass of the whitespace collapse; the flag records whether the
previous character belonged to a whitespace run whose single replacement
space was already emitted. -/
def collapse_ws : Bool → List Char → List Char
  | _, [] => []
  | in_run, c :: cs =>
      if isPyWs c then
        if in_run then collapse_ws true cs
        else ' ' :: collapse_ws true cs
      else c :: collapse_ws false cs

/-- Python's `str.strip()` on the collapsed characters. -/
def strip_chars (l : List Char) : List Char :=
  ((l.dropWhile isPyWs).reverse.dropWhile isPyWs).reverse

/-- Function `strip_string`: merge whitespace runs into single spaces and
strip the ends. -/
def strip_string (s : String) : String :=
  ⟨strip_chars (collapse_ws false s.data)⟩

/-- Method `RobustParser.parse_multi_token_skip_reuse_chart` up to its
input guard: normalize with `strip_string`, raise
`ParseException("input string is empty")` when the result is empty, and
otherwise run the multi-token/skip/chart-reuse loop — abstracted here as
`run` on the normalized sentence, since the claims under verification
concern only the guard and the exception flow around it. -/
def parse_multi_token_skip_reuse_chart {α : Type} (run : String → α)
    (sent : String) : Except Unit α :=
  let s := strip_string sent
  if s.length = 0 then .error ()
  else .ok (run s)

/-- Method `RobustParser.parse_to_chart`: delegates to
`parse_multi_token_skip_reuse_chart`. -/
def parse_to_chart {α : Type} (run : String → α) (sent : String) :
    Except Unit α :=
  parse_multi_token_skip_reuse_chart run sent

theorem collapse_ws_all_ws_true :
    ∀ (l : List Char), l.all isPyWs = true → collapse_ws true l = []
  | [], _ => rfl
  | c :: cs, h => by
      simp only [List.all_cons, Bool.and_eq_true] at h
      simp only [collapse_ws, h.1, if_true]
      exact collapse_ws_all_ws_true cs h.2

theorem collapse_ws_all_ws_false :
    ∀ (l : List Char), l.all isPyWs = true →
      collapse_ws false l = [] ∨ collapse_ws false l = [' ']
  | [], _ => Or.inl rfl
  | c :: cs, h => by
      simp only [List.all_cons, Bool.and_eq_true] at h
      right
      simp only [collapse_ws, h.1, if_true, Bool.false_eq_true, if_false]
      rw [collapse_ws_all_ws_true cs h.2]

theorem strip_string_of_all_ws (sent : String)
    (h : sent.data.all isPyWs = true) : (strip_string sent).length = 0 := by
  rw [strip_string]
  rcases collapse_ws_all_ws_false sent.data h with hc | hc <;> rw [hc] <;> rfl

/-- C7: for every input consisting only of whitespace characters
(including the empty string), `parse_to_chart` raises `ParseException`
at its input guard, before any chart construction, and never returns a
chart. -/
theorem c7_whitespace_only_rejected {α : Type} (run : String → α)
    (sent : String) (h : sent.data.all isPyWs = true) :
    parse_to_chart run sent = .error () := by
  rw [parse_to_chart, parse_multi_token_skip_reuse_chart]
  simp only [strip_string_of_all_ws sent h, if_true]

/-- Witness for C7 on the whitespace-only input of spaces, a tab and a
newline. -/
theorem c7_whitespace_only_rejected_witness :
    parse_to_chart (fun _ : String => ()) " \t\x0a " = .error () :=
  c7_whitespace_only_rejected (fun _ => ()) " \t\x0a " (by decide)

/-!
Method `RobustParser.parse_string` (the body of `parse`):
`parse_to_chart` runs before the `try` block, so a `ParseException`
raised there propagates to the caller; tree extraction and best-tree
selection run inside the `try`, and their `ParseException` is caught and
converted to the pair `(None, None)`.  `trees_best` abstracts
`chart.trees` followed by `best_tree_with_parse_result` on the resulting
chart.
-/

def parse_string {χ ρ : Type} (run : String → χ)
    (trees_best : χ → Except Unit (TreeNode × ρ)) (sent : String) :
    Except Unit (Option TreeNode × Option ρ) :=
  match parse_to_chart run sent with
  | .error e => .error e
  | .ok chart =>
      match trees_best chart with
      | .error _ => .ok (none, none)
      | .ok tr => .ok (some tr.1, some tr.2)

/-- C9 (counterexample): on the empty input string, `parse` propagates
the `ParseException` raised by `parse_to_chart` — the call sits outside
the `try` block of `parse_string` — instead of returning `(None, None)`. -/
theorem c9_empty_input_propagates :
    parse_string (fun _ : String => ())
      (fun _ => (.error () : Except Unit (TreeNode × Unit))) "" =
      .error () := rfl

theorem dropWhile_mem_of_neg (p : Char → Bool) :
    ∀ (l : List Char) (c : Char), c ∈ l → p c = false → c ∈ l.dropWhile p
  | [], c, hc, _ => absurd hc (List.not_mem_nil c)
  | a :: l, c, hc, hp => by
      by_cases ha : p a
      · rw [List.dropWhile_cons_of_pos ha]
        rcases List.mem_cons.mp hc with hca | hca
        · rw [hca] at hp
          rw [hp] at ha
          cases ha
        · exact dropWhile_mem_of_neg p l c hca hp
      · rw [List.dropWhile_cons_of_neg ha]
        exact hc

theorem collapse_ws_mem_of_non_ws :
    ∀ (l : List Char) (b : Bool) (c : Char), c ∈ l → isPyWs c = false →
      c ∈ collapse_ws b l
  | [], _, c, hc, _ => absurd hc (List.not_mem_nil c)
  | a :: l, b, c, hc, hp => by
      by_cases ha : isPyWs a
      · have hca : c ∈ l := by
          rcases List.mem_cons.mp hc with hca | hca
          · rw [hca] at hp
            rw [hp] at ha
            cases ha
          · exact hca
        have hrec := collapse_ws_mem_of_non_ws l true c hca hp
        match b with
        | true =>
            simp only [collapse_ws, ha, if_true]
            exact hrec
        | false =>
            simp only [collapse_ws, ha, if_true, Bool.false_eq_true, if_false]
            exact List.mem_cons_of_mem _ hrec
      · simp only [collapse_ws, ha, Bool.false_eq_true, if_false]
        rcases List.mem_cons.mp hc with hca | hca
        · rw [hca]
          exact List.mem_cons_self _ _
        · exact List.mem_cons_of_mem _
            (collapse_ws_mem_of_non_ws l false c hca hp)

theorem strip_chars_mem_of_non_ws (l : List Char) (c : Char) (hc : c ∈ l)
    (hp : isPyWs c = false) : c ∈ strip_chars l := by
  rw [strip_chars]
  rw [List.mem_reverse]
  refine dropWhile_mem_of_neg isPyWs _ c ?_ hp
  rw [List.mem_reverse]
  exact dropWhile_mem_of_neg isPyWs l c hc hp

theorem strip_string_ne_empty (sent : String) (c : Char)
    (hc : c ∈ sent.data) (hp : isPyWs c = false) :
    (strip_string sent).length ≠ 0 := by
  rw [strip_string]
  intro hlen
  have hmem : c ∈ strip_chars (collapse_ws false sent.data) :=
    strip_chars_mem_of_non_ws _ c
      (collapse_ws_mem_of_non_ws sent.data false c hc hp) hp
  have : strip_chars (collapse_ws false sent.data) = [] :=
    List.eq_nil_of_length_eq_zero hlen
  rw [this] at hmem
  exact absurd hmem (List.not_mem_nil c)

/-- C9 (amended): for every input containing at least one non-whitespace
character, `parse` never propagates a `ParseException`: it returns a
pair, which is `(None, None)` when tree extraction fails.  (On
whitespace-only input the exception from `parse_to_chart` propagates, as
the counterexample shows.) -/
theorem c9_parse_returns_pair_on_nonblank {χ ρ : Type} (run : String → χ)
    (trees_best : χ → Except Unit (TreeNode × ρ)) (sent : String)
    (h : ∃ c ∈ sent.data, isPyWs c = false) :
    ∃ v, parse_string run trees_best sent = .ok v := by
  obtain ⟨c, hc, hp⟩ := h
  rw [parse_string, parse_to_chart, parse_multi_token_skip_reuse_chart]
  simp only [if_neg (strip_string_ne_empty sent c hc hp)]
  rcases trees_best (run (strip_string sent)) with _ | tr
  · exact ⟨(none, none), rfl⟩
  · exact ⟨(some tr.1, some tr.2), rfl⟩

/-- Witness for the amended C9 on the input `"hi"` with a failing tree
extractor. -/
theorem c9_parse_returns_pair_on_nonblank_witness :
    ∃ v, parse_string (fun _ : String => ())
      (fun _ => (.error () : Except Unit (TreeNode × Unit))) "hi" =
      .ok v :=
  c9_parse_returns_pair_on_nonblank (fun _ => ())
    (fun _ => (.error () : Except Unit (TreeNode × Unit))) "hi"
    ⟨'h', by decide, by decide⟩

/-!
Object identity for `GrammarElement.set_name`.  The method does
`newself = copy.copy(self)`, sets `newself.name = name`, and replaces
`newself.post_funcs` with the slice copy `self.post_funcs[:]`, returning
an object with a new id — and therefore a new hash, since
`__hash__` is `hash(id(self))`.  To reason about identity, copies and
shared structure, elements live in an explicit heap of allocated objects.
`ElemData` carries the attributes the claim is about: the display name,
the reference to the callback-list object, and the references to the
child elements (`exprs`/`expr`); `copy.copy` copies the remaining
attributes unchanged in exactly the same way.  Callback lists are
separate heap objects, because `post_funcs[:]` allocates a new list
object with equal contents.
-/

structure ElemData where
  name : Option String
  post_funcs_ref : Nat
  child_refs : List Nat
deriving DecidableEq

structure ElemHeap where
  elems : List (Nat × ElemData)
  lists : List (Nat × List Nat)
  next_id : Nat

def assoc_lookup {α : Type} (l : List (Nat × α)) (i : Nat) : Option α :=
  (l.find? (fun kv => kv.1 == i)).map (fun kv => kv.2)

theorem assoc_lookup_cons {α : Type} (kv : Nat × α) (rest : List (Nat × α))
    (i : Nat) :
    assoc_lookup (kv :: rest) i =
      if kv.1 = i then some kv.2 else assoc_lookup rest i := by
  by_cases h : kv.1 = i
  · rw [if_pos h]
    unfold assoc_lookup
    rw [List.find?_cons_of_pos _ (by simpa using h)]
    rfl
  · rw [if_neg h]
    unfold assoc_lookup
    rw [List.find?_cons_of_neg _ (by simpa using h)]

def lookup_elem (h : ElemHeap) (i : Nat) : Option ElemData :=
  assoc_lookup h.elems i

def lookup_list (h : ElemHeap) (i : Nat) : Option (List Nat) :=
  assoc_lookup h.lists i

/-- Python's `__hash__` for grammar elements: `hash(id(self))`. -/
def elem_hash (i : Nat) : Nat := i

/-- Method `GrammarElement.set_name(name)`: shallow-copy the receiver into
a fresh object (new id, every attribute reference shared), set the copy's
`name`, and give it a fresh copy of the receiver's callback list. -/
def set_name (h : ElemHeap) (i : Nat) (nm : String) :
    Option (ElemHeap × Nat) :=
  match lookup_elem h i with
  | none => none
  | some d =>
      match lookup_list h d.post_funcs_ref with
      | none => none
      | some pf =>
          let new_elem_id := h.next_id
          let new_list_id := h.next_id + 1
          some
            ({ elems := (new_elem_id,
                  { d with name := some nm,
                           post_funcs_ref := new_list_id }) :: h.elems,
               lists := (new_list_id, pf) :: h.lists,
               next_id := h.next_id + 2 }, new_elem_id)

/-- C8: `set_name` returns a new element distinct in identity and hash
from the receiver, carrying the new name, whose callback list is equal in
contents to but a different object from the receiver's, and sharing the
receiver's child element objects; the receiver itself (and its callback
list) are unchanged.  The hypotheses say that `i` is an allocated element
whose callback list is allocated, below the heap's allocation counter. -/
theorem c8_set_name_fresh_copy (h : ElemHeap) (i : Nat) (nm : String)
    (d : ElemData) (pf : List Nat)
    (hd : lookup_elem h i = some d)
    (hpf : lookup_list h d.post_funcs_ref = some pf)
    (hi : i < h.next_id) (hr : d.post_funcs_ref < h.next_id) :
    ∃ h2 j, set_name h i nm = some (h2, j) ∧
      j ≠ i ∧
      elem_hash j ≠ elem_hash i ∧
      (∃ d2, lookup_elem h2 j = some d2 ∧
        d2.name = some nm ∧
        d2.child_refs = d.child_refs ∧
        d2.post_funcs_ref ≠ d.post_funcs_ref ∧
        lookup_list h2 d2.post_funcs_ref = some pf) ∧
      lookup_elem h2 i = lookup_elem h i ∧
      lookup_list h2 d.post_funcs_ref = lookup_list h d.post_funcs_ref := by
  refine ⟨⟨(h.next_id, ⟨some nm, h.next_id + 1, d.child_refs⟩) :: h.elems,
          (h.next_id + 1, pf) :: h.lists, h.next_id + 2⟩, h.next_id,
          ?_, ?_, ?_,
          ⟨⟨some nm, h.next_id + 1, d.child_refs⟩, ?_, rfl, rfl, ?_, ?_⟩,
          ?_, ?_⟩
  · simp only [set_name, hd, hpf]
  · omega
  · simp only [elem_hash]
    omega
  · simp only [lookup_elem]
    rw [assoc_lookup_cons, if_pos rfl]
  · show h.next_id + 1 ≠ d.post_funcs_ref
    omega
  · simp only [lookup_list]
    rw [assoc_lookup_cons, if_pos rfl]
  · simp only [lookup_elem]
    rw [assoc_lookup_cons, if_neg (by omega : ¬ h.next_id = i)]
  · simp only [lookup_list]
    rw [assoc_lookup_cons,
      if_neg (by omega : ¬ h.next_id + 1 = d.post_funcs_ref)]

/-- Concrete heap for the C8 witness: element 0 (unnamed, callback list
object 1, one child reference) and list object 1. -/
def c8Heap : ElemHeap :=
  ⟨[(0, ⟨none, 1, [5]⟩)], [(1, [7])], 2⟩

/-- Witness for C8 at the concrete heap `c8Heap`. -/
theorem c8_set_name_fresh_copy_witness :
    ∃ h2 j, set_name c8Heap 0 "light" = some (h2, j) ∧
      j ≠ 0 ∧
      elem_hash j ≠ elem_hash 0 ∧
      (∃ d2, lookup_elem h2 j = some d2 ∧
        d2.name = some "light" ∧
        d2.child_refs = (⟨none, 1, [5]⟩ : ElemData).child_refs ∧
        d2.post_funcs_ref ≠ (⟨none, 1, [5]⟩ : ElemData).post_funcs_ref ∧
        lookup_list h2 d2.post_funcs_ref = some [7]) ∧
      lookup_elem h2 0 = lookup_elem c8Heap 0 ∧
      lookup_list h2 (⟨none, 1, [5]⟩ : ElemData).post_funcs_ref =
        lookup_list c8Heap (⟨none, 1, [5]⟩ : ElemData).post_funcs_ref :=
  c8_set_name_fresh_copy c8Heap 0 "light" ⟨none, 1, [5]⟩ [7]
    (by decide) (by decide) (by decide) (by decide)

end Parsetron
